import Mathlib

/-!
# Verification of the newlogme activity-tracking core

Shallow embedding of the aggregation and categorization engine of the
newlogme time-tracker dashboard, together with proofs about it.

The embedded code:

* `calculateAppDurations` (src/site-template/src/components/tracker/shared.ts,
  lines 61-83): the in-memory duration aggregator.
* `getAppUsageForDate` (src/site-template/backend-lib/tracker-db.ts,
  lines 283-323): the SQL duration aggregator.
* `getOverview` (tracker-db.ts, lines 230-278) and `getAvailableDates`
  (tracker-db.ts, lines 94-115): the range summarizer.
* the server route limit clamping (src/site-template/server.ts, line 138).
* `categorize`: modelled from the spec (no implementation exists under the
  repository sources; only the Settings page stores the rule list).

Modelling conventions: timestamps are epoch milliseconds as integers (the
value of JavaScript's `Date.getTime()`); durations are rationals, since the
code divides millisecond differences by 1000.  A JavaScript
`Record<string, number>` is modelled as an association list in insertion
order, and `Object.entries` enumeration order is modelled faithfully,
including the ECMAScript rule that keys which are canonical array indices
are enumerated first, in ascending numeric order, before the remaining
string keys in insertion order.  JavaScript's `Array.prototype.sort` is
stable, and is modelled by `List.insertionSort`, which is also stable.
-/

/-- The locked-screen sentinel application name (shared.ts line 80). -/
def lockedScreen : String := "__LOCKEDSCREEN"

/-- A window-focus event row (shared.ts lines 7-12).  `timestamp` is epoch
milliseconds, the value of `new Date(e.timestamp).getTime()`. -/
structure WindowEvent where
  timestamp : ℤ
  app_name : String
  window_title : Option String := none
  browser_url : Option String := none
  deriving DecidableEq

/-- A per-app duration entry of the aggregator's output (shared.ts line 63). -/
structure AppDuration where
  app : String
  duration : ℚ
  deriving DecidableEq

/-- The gap from an event to another, in seconds:
`(next.getTime() - current.getTime()) / 1000` (shared.ts line 72). -/
def gapSeconds (e e' : WindowEvent) : ℚ :=
  ((e'.timestamp - e.timestamp : ℤ) : ℚ) / 1000

/-- The 30-minute idle cap, in seconds: `30 * 60` (shared.ts line 73). -/
def gapCap : ℚ := 30 * 60

/-- The capped duration contributed by each event of the input, in order:
for event `i` the gap runs to event `i+1`, or to the event itself when it is
last (`events[i + 1] ? ... : current`, shared.ts lines 67-73), and is capped
at `gapCap`. -/
def contribs : List WindowEvent → List (String × ℚ)
  | [] => []
  | [e] => [(e.app_name, min (gapSeconds e e) gapCap)]
  | e :: e' :: rest => (e.app_name, min (gapSeconds e e') gapCap) :: contribs (e' :: rest)

/-- `durations[app] = (durations[app] || 0) + cappedDuration` (shared.ts
line 76) on an insertion-ordered association list: add to the existing
bucket in place, or append a fresh bucket at the end. -/
def upsert : List (String × ℚ) → String → ℚ → List (String × ℚ)
  | [], a, d => [(a, d)]
  | e :: rest, a, d =>
    if e.1 = a then (e.1, e.2 + d) :: rest else e :: upsert rest a d

/-- The accumulation loop of `calculateAppDurations` (shared.ts lines
64-77): fold the capped contributions into the per-app buckets. -/
def accumulate (events : List WindowEvent) : List (String × ℚ) :=
  (contribs events).foldl (fun m c => upsert m c.1 c.2) []

/-- Numeric value of a list of decimal digit characters. -/
def decimalValue (l : List Char) : ℕ :=
  l.foldl (fun n c => 10 * n + (c.toNat - 48)) 0

/-- Whether a string is a canonical array-index key in the ECMAScript sense:
a non-empty all-digit string without a leading zero (except `"0"` itself)
whose value is below `2^32 - 1`.  `Object.entries` enumerates such keys
first, in ascending numeric order. -/
def isArrayIndex (s : String) : Bool :=
  !s.data.isEmpty && s.data.all Char.isDigit &&
    (decide (s.data = ['0']) || !(s.data.head? == some '0')) &&
    decide (decimalValue s.data < 4294967295)

/-- `Object.entries` enumeration order on the modelled record: canonical
array-index keys first in ascending numeric order, then the remaining keys
in insertion order. -/
def entriesOf (m : List (String × ℚ)) : List (String × ℚ) :=
  List.insertionSort (fun a b : String × ℚ => decimalValue a.1.data ≤ decimalValue b.1.data)
      (m.filter (fun e => isArrayIndex e.1))
    ++ m.filter (fun e => !isArrayIndex e.1)

/-- The sort order of the output: the comparator `(a, b) => b[1] - a[1]`
(shared.ts line 81) puts `a` before `b` exactly when `b.2 ≤ a.2`. -/
def byDurationDesc (a b : String × ℚ) : Prop := b.2 ≤ a.2

instance : DecidableRel byDurationDesc :=
  fun a b => inferInstanceAs (Decidable (b.2 ≤ a.2))

instance : IsTotal (String × ℚ) byDurationDesc :=
  ⟨fun a b => le_total b.2 a.2⟩

instance : IsTrans (String × ℚ) byDurationDesc :=
  ⟨fun _ _ _ h1 h2 => le_trans h2 h1⟩

/-- `calculateAppDurations` (shared.ts lines 61-83): accumulate capped
per-app durations, enumerate the record's entries, drop the locked-screen
sentinel, sort by descending duration (stably), and package the result. -/
def calculateAppDurations (events : List WindowEvent) : List AppDuration :=
  (List.insertionSort byDurationDesc
      ((entriesOf (accumulate events)).filter (fun e => decide (e.1 ≠ lockedScreen)))).map
    (fun e => ⟨e.1, e.2⟩)

/-- Default event used by positional indexing in specification statements. -/
def defaultEvent : WindowEvent := ⟨0, "", none, none⟩

/-- The event at index `i` (specification-side positional view). -/
def eventAt (events : List WindowEvent) (i : ℕ) : WindowEvent :=
  events.getD i defaultEvent

/-- The capped gap at index `i`: the gap to the following event (or to the
event itself when it is last), capped at `gapCap`. -/
def cappedGapAt (events : List WindowEvent) (i : ℕ) : ℚ :=
  min (gapSeconds (eventAt events i) (events.getD (i + 1) (eventAt events i))) gapCap

/-- Reading a bucket: `durations[app] || 0`. -/
def lookupD : List (String × ℚ) → String → ℚ
  | [], _ => 0
  | e :: rest, a => if e.1 = a then e.2 else lookupD rest a

/-- Sum of the values carried by the entries whose key is `a`. -/
def sumFor (l : List (String × ℚ)) (a : String) : ℚ :=
  ((l.filter (fun e => decide (e.1 = a))).map Prod.snd).sum

/-- Sum of all values of an association list. -/
def sumSnd (l : List (String × ℚ)) : ℚ := (l.map Prod.snd).sum

/-- First-occurrence order of the elements of a list: the order in which
record keys are created by the accumulation loop. -/
def firstOccur (l : List String) : List String :=
  l.foldl (fun acc a => if a ∈ acc then acc else acc ++ [a]) []

/-! ## Bucket lemmas -/

theorem lookupD_upsert (m : List (String × ℚ)) (a b : String) (d : ℚ) :
    lookupD (upsert m a d) b = lookupD m b + if a = b then d else 0 := by
  induction m with
  | nil =>
    by_cases hab : a = b <;> simp [upsert, lookupD, hab]
  | cons e rest ih =>
    by_cases hea : e.1 = a
    · by_cases heb : e.1 = b
      · simp [upsert, lookupD, hea, heb, hea.symm.trans heb]
      · have hab : ¬ a = b := fun h => heb (hea.trans h)
        simp [upsert, lookupD, hea, heb, hab]
    · by_cases heb : e.1 = b
      · have hba : ¬ b = a := fun h => hea (heb.trans h)
        simp [upsert, lookupD, hea, heb, hba]
        exact fun h => absurd h.symm hba
      · simp [upsert, lookupD, hea, heb, ih]

theorem keys_upsert (m : List (String × ℚ)) (a : String) (d : ℚ) :
    (upsert m a d).map Prod.fst =
      if a ∈ m.map Prod.fst then m.map Prod.fst else m.map Prod.fst ++ [a] := by
  induction m with
  | nil => simp [upsert]
  | cons e rest ih =>
    by_cases hea : e.1 = a
    · simp [upsert, hea]
    · have hne : ¬ a = e.1 := fun h => hea h.symm
      by_cases hmem : a ∈ rest.map Prod.fst
      · simp [upsert, hea, ih, hne, hmem]
      · simp [upsert, hea, ih, hne, hmem]

theorem sumSnd_upsert (m : List (String × ℚ)) (a : String) (d : ℚ) :
    sumSnd (upsert m a d) = sumSnd m + d := by
  induction m with
  | nil => simp [upsert, sumSnd]
  | cons e rest ih =>
    by_cases hea : e.1 = a
    · simp [upsert, hea, sumSnd]
      ring
    · simp [upsert, hea, sumSnd] at ih ⊢
      rw [ih]
      ring

theorem values_upsert_nonneg (m : List (String × ℚ)) (a : String) (d : ℚ)
    (hm : ∀ e ∈ m, 0 ≤ e.2) (hd : 0 ≤ d) : ∀ e ∈ upsert m a d, 0 ≤ e.2 := by
  induction m with
  | nil =>
    intro e he
    simp [upsert] at he
    simpa [he] using hd
  | cons x rest ih =>
    intro e he
    by_cases hxa : x.1 = a
    · simp [upsert, hxa] at he
      rcases he with he | he
      · have hx := hm x (by simp)
        simpa [he] using add_nonneg hx hd
      · exact hm e (by simp [he])
    · simp [upsert, hxa] at he
      rcases he with he | he
      · exact hm e (by simp [he])
      · exact ih (fun y hy => hm y (by simp [hy])) e he

/-! ## Fold lemmas : the accumulation loop -/

theorem lookupD_foldl (l : List (String × ℚ)) (m : List (String × ℚ)) (a : String) :
    lookupD (l.foldl (fun m c => upsert m c.1 c.2) m) a = lookupD m a + sumFor l a := by
  induction l generalizing m with
  | nil => simp [sumFor]
  | cons c rest ih =>
    rw [List.foldl_cons, ih, lookupD_upsert]
    by_cases hca : c.1 = a <;> simp [sumFor, hca] <;> ring

theorem sumSnd_foldl (l : List (String × ℚ)) (m : List (String × ℚ)) :
    sumSnd (l.foldl (fun m c => upsert m c.1 c.2) m) = sumSnd m + sumSnd l := by
  induction l generalizing m with
  | nil => simp [sumSnd]
  | cons c rest ih =>
    rw [List.foldl_cons, ih, sumSnd_upsert]
    simp [sumSnd]
    ring

theorem keys_foldl (l : List (String × ℚ)) (m : List (String × ℚ)) :
    (l.foldl (fun m c => upsert m c.1 c.2) m).map Prod.fst =
      (l.map Prod.fst).foldl (fun acc a => if a ∈ acc then acc else acc ++ [a])
        (m.map Prod.fst) := by
  induction l generalizing m with
  | nil => simp
  | cons c rest ih =>
    rw [List.foldl_cons, ih, keys_upsert, List.map_cons, List.foldl_cons]

theorem values_foldl_nonneg (l : List (String × ℚ)) (m : List (String × ℚ))
    (hm : ∀ e ∈ m, 0 ≤ e.2) (hl : ∀ e ∈ l, 0 ≤ e.2) :
    ∀ e ∈ l.foldl (fun m c => upsert m c.1 c.2) m, 0 ≤ e.2 := by
  induction l generalizing m with
  | nil => simpa using hm
  | cons c rest ih =>
    rw [List.foldl_cons]
    exact ih _ (values_upsert_nonneg m c.1 c.2 hm (hl c (by simp)))
      (fun e he => hl e (by simp [he]))

/-! ## Contribution lemmas -/

theorem sumFor_cons (b : String) (x : ℚ) (l : List (String × ℚ)) (a : String) :
    sumFor ((b, x) :: l) a = (if b = a then x else 0) + sumFor l a := by
  by_cases hba : b = a
  · simp [sumFor, hba]
  · simp [sumFor, hba]

theorem contribs_keys :
    ∀ events : List WindowEvent,
      (contribs events).map Prod.fst = events.map (fun e => e.app_name)
  | [] => rfl
  | [_] => rfl
  | e :: e' :: rest => by
    simp only [contribs, List.map_cons]
    rw [contribs_keys (e' :: rest)]
    simp

/-- The pairwise capped-gap sum of the specification: over each pair of
consecutive events, `min` of the gap in seconds and the cap. -/
def pairwiseCappedSum : List WindowEvent → ℚ
  | e :: e' :: rest => min (gapSeconds e e') gapCap + pairwiseCappedSum (e' :: rest)
  | _ => 0

theorem gapSeconds_self (e : WindowEvent) : gapSeconds e e = 0 := by
  simp [gapSeconds]

theorem sumSnd_contribs :
    ∀ events : List WindowEvent, sumSnd (contribs events) = pairwiseCappedSum events
  | [] => rfl
  | [e] => by
    simp [contribs, pairwiseCappedSum, sumSnd, gapSeconds_self]
    norm_num [gapCap]
  | e :: e' :: rest => by
    simp only [contribs, pairwiseCappedSum, sumSnd, List.map_cons, List.sum_cons]
    rw [show ((contribs (e' :: rest)).map Prod.snd).sum = sumSnd (contribs (e' :: rest)) from rfl,
      sumSnd_contribs (e' :: rest)]

theorem sumFor_contribs :
    ∀ (events : List WindowEvent) (a : String),
      sumFor (contribs events) a =
        ((List.range events.length).map
            (fun i => if (eventAt events i).app_name = a then cappedGapAt events i else 0)).sum
  | [], a => by simp [contribs, sumFor]
  | [e], a => by
    by_cases h : e.app_name = a
    · simp [contribs, sumFor_cons, h, sumFor, eventAt, cappedGapAt,
        show List.range 1 = [0] from rfl, List.getD]
    · simp [contribs, sumFor_cons, h, sumFor, eventAt, cappedGapAt,
        show List.range 1 = [0] from rfl, List.getD]
  | e :: e' :: rest, a => by
    rw [show contribs (e :: e' :: rest) =
        (e.app_name, min (gapSeconds e e') gapCap) :: contribs (e' :: rest) from rfl,
      sumFor_cons, sumFor_contribs (e' :: rest) a,
      show (e :: e' :: rest).length = (e' :: rest).length + 1 from rfl,
      List.range_succ_eq_map]
    simp only [List.map_cons, List.sum_cons, List.map_map]
    congr 1

/-! ## Key-order lemmas -/

theorem mem_foldl_firstOccur (l : List String) (acc : List String) (a : String) :
    a ∈ l.foldl (fun acc a => if a ∈ acc then acc else acc ++ [a]) acc ↔
      a ∈ acc ∨ a ∈ l := by
  induction l generalizing acc with
  | nil => simp
  | cons b rest ih =>
    rw [List.foldl_cons, ih]
    by_cases hb : b ∈ acc
    · simp only [if_pos hb, List.mem_cons]
      constructor
      · rintro (h | h)
        · exact Or.inl h
        · exact Or.inr (Or.inr h)
      · rintro (h | h | h)
        · exact Or.inl h
        · exact Or.inl (h ▸ hb)
        · exact Or.inr h
    · simp only [if_neg hb, List.mem_append, List.mem_singleton, List.mem_cons]
      tauto

theorem mem_firstOccur (l : List String) (a : String) :
    a ∈ firstOccur l ↔ a ∈ l := by
  rw [firstOccur, mem_foldl_firstOccur]
  simp

theorem keys_accumulate (events : List WindowEvent) :
    (accumulate events).map Prod.fst = firstOccur (events.map (fun e => e.app_name)) := by
  rw [accumulate, keys_foldl, contribs_keys, firstOccur]
  simp

/-! ## Membership through the output pipeline -/

theorem mem_entriesOf (m : List (String × ℚ)) (x : String × ℚ) :
    x ∈ entriesOf m ↔ x ∈ m := by
  rw [entriesOf, List.mem_append, List.mem_insertionSort]
  constructor
  · rintro (h | h) <;> exact (List.mem_filter.mp h).1
  · intro h
    by_cases hp : isArrayIndex x.1
    · exact Or.inl (List.mem_filter.mpr ⟨h, by simp [hp]⟩)
    · exact Or.inr (List.mem_filter.mpr ⟨h, by simp [hp]⟩)

theorem mem_calculateAppDurations (events : List WindowEvent) (d : AppDuration) :
    d ∈ calculateAppDurations events ↔
      ∃ e ∈ accumulate events, ¬ e.1 = lockedScreen ∧ d = ⟨e.1, e.2⟩ := by
  rw [calculateAppDurations, List.mem_map]
  constructor
  · rintro ⟨e, he, rfl⟩
    rw [List.mem_insertionSort, List.mem_filter] at he
    refine ⟨e, (mem_entriesOf _ _).mp he.1, ?_, rfl⟩
    simpa using he.2
  · rintro ⟨e, he, hne, rfl⟩
    exact ⟨e, by
      rw [List.mem_insertionSort, List.mem_filter]
      exact ⟨(mem_entriesOf _ _).mpr he, by simpa using hne⟩, rfl⟩

/-! ## Claim C1 : each index contributes exactly the capped gap -/

/-- C1: for every input sequence and app, the running total the aggregator
accumulates for that app is the sum, over the indices holding that app, of
`min(gap to the next event in seconds, 1800)` (the final event contributing
the capped zero gap); in particular a 5000-second gap between two events of
one app makes that app's running total exactly 1800. -/
theorem c1_capped_gap_added_per_index :
    (∀ (events : List WindowEvent) (a : String),
        lookupD (accumulate events) a =
          ((List.range events.length).map
              (fun i =>
                if (eventAt events i).app_name = a then cappedGapAt events i else 0)).sum) ∧
      lookupD (accumulate [⟨0, "A", none, none⟩, ⟨5000000, "A", none, none⟩]) "A" = 1800 := by
  constructor
  · intro events a
    rw [accumulate, lookupD_foldl, sumFor_contribs]
    simp [lookupD]
  · norm_num [accumulate, contribs, gapSeconds, gapCap, upsert, lookupD, List.foldl]

/-! ## Claim C2 : the sentinel never reaches the output -/

/-- C2: no output entry carries the locked-screen sentinel app name, for any
input; and the sentinel is removed only after accumulation, not skipped
during it — it owns a bucket of the accumulated record exactly when it
occurs in the input. -/
theorem c2_locked_screen_filtered (events : List WindowEvent) :
    (∀ d ∈ calculateAppDurations events, ¬ d.app = lockedScreen) ∧
      (lockedScreen ∈ (accumulate events).map Prod.fst ↔
        lockedScreen ∈ events.map (fun e => e.app_name)) := by
  constructor
  · intro d hd
    rcases (mem_calculateAppDurations events d).mp hd with ⟨e, _, hne, rfl⟩
    exact hne
  · rw [keys_accumulate, mem_firstOccur]

/-! ## Stability of the duration sort -/

theorem filter_duration_orderedInsert (q : ℚ) (x : String × ℚ) (l : List (String × ℚ)) :
    (List.orderedInsert byDurationDesc x l).filter (fun e => decide (e.2 = q)) =
      if x.2 = q then x :: l.filter (fun e => decide (e.2 = q))
      else l.filter (fun e => decide (e.2 = q)) := by
  induction l with
  | nil =>
    by_cases hx : x.2 = q
    · simp [List.orderedInsert, hx]
    · simp [List.orderedInsert, hx]
  | cons y ys ih =>
    by_cases hc : byDurationDesc x y
    · by_cases hx : x.2 = q
      · simp [List.orderedInsert, hc, hx, List.filter_cons]
      · simp [List.orderedInsert, hc, hx, List.filter_cons]
    · by_cases hx : x.2 = q
      · have hyq : ¬ y.2 = q := by
          intro h
          exact hc (by simp [byDurationDesc, hx, h])
        simp [List.orderedInsert, hc, ih, hx, hyq, List.filter_cons]
      · simp [List.orderedInsert, hc, ih, hx, List.filter_cons]

theorem filter_duration_insertionSort (q : ℚ) (l : List (String × ℚ)) :
    (List.insertionSort byDurationDesc l).filter (fun e => decide (e.2 = q)) =
      l.filter (fun e => decide (e.2 = q)) := by
  induction l with
  | nil => rfl
  | cons x xs ih =>
    by_cases hx : x.2 = q
    · simp [List.insertionSort, filter_duration_orderedInsert, hx, ih, List.filter_cons]
    · simp [List.insertionSort, filter_duration_orderedInsert, hx, ih, List.filter_cons]

/-! ## Permutation and sum lemmas for the output pipeline -/

theorem perm_entriesOf (m : List (String × ℚ)) : List.Perm (entriesOf m) m := by
  rw [entriesOf]
  exact ((List.perm_insertionSort _ _).append (List.Perm.refl _)).trans
    (List.filter_append_perm _ m)

theorem sumSnd_entriesOf (m : List (String × ℚ)) : sumSnd (entriesOf m) = sumSnd m :=
  ((perm_entriesOf m).map Prod.snd).sum_eq

theorem no_sentinel_keys (events : List WindowEvent)
    (hns : ∀ e ∈ events, ¬ e.app_name = lockedScreen) :
    ∀ e ∈ entriesOf (accumulate events), decide (e.1 ≠ lockedScreen) = true := by
  intro e he
  have hmem : e.1 ∈ (accumulate events).map Prod.fst :=
    List.mem_map_of_mem Prod.fst ((mem_entriesOf _ _).mp he)
  rw [keys_accumulate, mem_firstOccur, List.mem_map] at hmem
  rcases hmem with ⟨ev, hev, h1⟩
  simp only [decide_eq_true_eq]
  exact fun h => hns ev hev (by rw [h1, h])

/-! ## Claim C6 : no negative durations on sorted input -/

theorem contribs_nonneg :
    ∀ events : List WindowEvent,
      List.Chain' (fun e e' => e.timestamp ≤ e'.timestamp) events →
        ∀ c ∈ contribs events, 0 ≤ c.2
  | [], _, c, hc => by simp [contribs] at hc
  | [e], _, c, hc => by
    simp only [contribs, List.mem_singleton] at hc
    rw [hc]
    have : (0 : ℚ) ≤ gapSeconds e e := by rw [gapSeconds_self]
    exact le_min this (by norm_num [gapCap])
  | e :: e' :: rest, hch, c, hc => by
    rw [List.chain'_cons] at hch
    simp only [contribs, List.mem_cons] at hc
    rcases hc with hc | hc
    · rw [hc]
      refine le_min ?_ (by norm_num [gapCap])
      rw [gapSeconds]
      have : (0 : ℚ) ≤ ((e'.timestamp - e.timestamp : ℤ) : ℚ) := by
        rw [Int.cast_nonneg]
        exact sub_nonneg.mpr hch.1
      exact div_nonneg this (by norm_num)
    · exact contribs_nonneg (e' :: rest) hch.2 c hc

/-- C6: on chronologically sorted input, every duration in the aggregator's
output is nonnegative. -/
theorem c6_output_durations_nonneg (events : List WindowEvent)
    (hsorted : List.Chain' (fun e e' => e.timestamp ≤ e'.timestamp) events) :
    ∀ d ∈ calculateAppDurations events, 0 ≤ d.duration := by
  intro d hd
  rcases (mem_calculateAppDurations events d).mp hd with ⟨e, he, _, rfl⟩
  rw [accumulate] at he
  exact values_foldl_nonneg _ [] (by simp) (contribs_nonneg events hsorted) e he

/-- Witness for C6 at a concrete sorted two-event input. -/
theorem c6_output_durations_nonneg_witness :
    List.Chain' (fun e e' : WindowEvent => e.timestamp ≤ e'.timestamp)
        [⟨0, "A", none, none⟩, ⟨600000, "B", none, none⟩] ∧
      ∀ d ∈ calculateAppDurations [⟨0, "A", none, none⟩, ⟨600000, "B", none, none⟩],
        0 ≤ d.duration := by
  have hh : List.Chain' (fun e e' : WindowEvent => e.timestamp ≤ e'.timestamp)
      [⟨0, "A", none, none⟩, ⟨600000, "B", none, none⟩] :=
    List.chain'_pair.mpr (by decide)
  exact ⟨hh, c6_output_durations_nonneg _ hh⟩

/-! ## Claim C5 : sum conservation -/

/-- C5 amended: for inputs containing no locked-screen event, the sum of the
output durations equals the sum of the pairwise capped gaps (the final event
contributing zero). -/
theorem c5_sum_of_output_eq_capped_gaps (events : List WindowEvent)
    (hns : ∀ e ∈ events, ¬ e.app_name = lockedScreen) :
    ((calculateAppDurations events).map (fun d => d.duration)).sum =
      pairwiseCappedSum events := by
  rw [calculateAppDurations, List.map_map]
  have h1 : ((fun d : AppDuration => d.duration) ∘ fun e : String × ℚ => ⟨e.1, e.2⟩) =
      Prod.snd := rfl
  rw [h1]
  have h2 : (entriesOf (accumulate events)).filter (fun e => decide (e.1 ≠ lockedScreen)) =
      entriesOf (accumulate events) :=
    List.filter_eq_self.mpr (no_sentinel_keys events hns)
  calc ((List.insertionSort byDurationDesc
          ((entriesOf (accumulate events)).filter (fun e => decide (e.1 ≠ lockedScreen)))).map
          Prod.snd).sum
      = sumSnd (entriesOf (accumulate events)) := by
        rw [h2]
        exact ((List.perm_insertionSort byDurationDesc _).map Prod.snd).sum_eq
    _ = sumSnd (accumulate events) := sumSnd_entriesOf _
    _ = pairwiseCappedSum events := by
        rw [accumulate, sumSnd_foldl, sumSnd_contribs]
        simp [sumSnd]

/-- Witness for C5 at a concrete sentinel-free input. -/
theorem c5_sum_of_output_eq_capped_gaps_witness :
    (∀ e ∈ [(⟨0, "A", none, none⟩ : WindowEvent), ⟨600000, "B", none, none⟩],
        ¬ e.app_name = lockedScreen) ∧
      ((calculateAppDurations [⟨0, "A", none, none⟩, ⟨600000, "B", none, none⟩]).map
          (fun d => d.duration)).sum =
        pairwiseCappedSum [⟨0, "A", none, none⟩, ⟨600000, "B", none, none⟩] := by
  have hns : ∀ e ∈ [(⟨0, "A", none, none⟩ : WindowEvent), ⟨600000, "B", none, none⟩],
      ¬ e.app_name = lockedScreen := by decide
  exact ⟨hns, c5_sum_of_output_eq_capped_gaps _ hns⟩

/-- C5 as stated is false: with a locked-screen event in the input, the
output sum drops that bucket and no longer equals the pairwise capped-gap
sum. -/
theorem c5_counterexample :
    ¬ (((calculateAppDurations
            [⟨0, lockedScreen, none, none⟩, ⟨100000, "A", none, none⟩]).map
          (fun d => d.duration)).sum =
        pairwiseCappedSum [⟨0, lockedScreen, none, none⟩, ⟨100000, "A", none, none⟩]) := by
  norm_num [calculateAppDurations, accumulate, contribs, entriesOf, upsert, gapSeconds,
    gapCap, pairwiseCappedSum, isArrayIndex, lockedScreen, List.insertionSort,
    List.orderedInsert, byDurationDesc, decimalValue, List.filter_cons]

/-! ## Claim C9 : descending sort with stable ties -/

theorem entriesOf_eq_self (m : List (String × ℚ))
    (h : ∀ e ∈ m, isArrayIndex e.1 = false) : entriesOf m = m := by
  rw [entriesOf]
  have h1 : m.filter (fun e => isArrayIndex e.1) = [] :=
    List.filter_eq_nil_iff.mpr (fun a ha => by simp [h a ha])
  have h2 : m.filter (fun e => !isArrayIndex e.1) = m :=
    List.filter_eq_self.mpr (fun a ha => by simp [h a ha])
  rw [h1, h2]
  simp [List.insertionSort]

theorem no_index_keys (events : List WindowEvent)
    (hidx : ∀ e ∈ events, isArrayIndex e.app_name = false) :
    ∀ e ∈ accumulate events, isArrayIndex e.1 = false := by
  intro e he
  have hmem : e.1 ∈ (accumulate events).map Prod.fst := List.mem_map_of_mem Prod.fst he
  rw [keys_accumulate, mem_firstOccur, List.mem_map] at hmem
  rcases hmem with ⟨ev, hev, h1⟩
  rw [← h1]
  exact hidx ev hev

/-- C9 amended: the output is sorted by descending duration; and provided no
app name is a canonical array-index string (which JavaScript object key
enumeration moves to the front in numeric order), entries with any given
duration value appear exactly in the accumulated record's insertion order,
whose keys are in first-occurrence order of the input. -/
theorem c9_sorted_desc_stable_ties (events : List WindowEvent)
    (hidx : ∀ e ∈ events, isArrayIndex e.app_name = false) :
    List.Pairwise (fun a b : AppDuration => b.duration ≤ a.duration)
        (calculateAppDurations events) ∧
      (∀ q : ℚ,
        ((calculateAppDurations events).filter (fun d => decide (d.duration = q))).map
            (fun d => d.app) =
          ((accumulate events).filter
              (fun e => decide (e.1 ≠ lockedScreen) && decide (e.2 = q))).map Prod.fst) ∧
      (accumulate events).map Prod.fst = firstOccur (events.map (fun e => e.app_name)) := by
  have hent : entriesOf (accumulate events) = accumulate events :=
    entriesOf_eq_self _ (no_index_keys events hidx)
  refine ⟨?_, ?_, keys_accumulate events⟩
  · rw [calculateAppDurations]
    refine List.pairwise_map.mpr ?_
    exact List.sorted_insertionSort byDurationDesc _
  · intro q
    rw [calculateAppDurations, hent, List.filter_map, List.map_map]
    have hfil :
        ((List.insertionSort byDurationDesc
              ((accumulate events).filter (fun e => decide (e.1 ≠ lockedScreen)))).filter
            ((fun d : AppDuration => decide (d.duration = q)) ∘ fun e : String × ℚ =>
              ⟨e.1, e.2⟩)) =
          ((accumulate events).filter (fun e => decide (e.1 ≠ lockedScreen))).filter
            (fun e => decide (e.2 = q)) :=
      filter_duration_insertionSort q _
    rw [hfil, List.filter_filter]
    rw [show ((fun d : AppDuration => d.app) ∘ fun e : String × ℚ =>
        (⟨e.1, e.2⟩ : AppDuration)) = Prod.fst from rfl]
    congr 1
    apply List.filter_congr
    intro a _
    exact Bool.and_comm _ _

/-- Witness for C9 at a concrete input without array-index app names. -/
theorem c9_sorted_desc_stable_ties_witness :
    (∀ e ∈ [(⟨0, "A", none, none⟩ : WindowEvent), ⟨600000, "B", none, none⟩],
        isArrayIndex e.app_name = false) ∧
      (List.Pairwise (fun a b : AppDuration => b.duration ≤ a.duration)
          (calculateAppDurations [⟨0, "A", none, none⟩, ⟨600000, "B", none, none⟩]) ∧
        (∀ q : ℚ,
          ((calculateAppDurations
                  [⟨0, "A", none, none⟩, ⟨600000, "B", none, none⟩]).filter
                (fun d => decide (d.duration = q))).map (fun d => d.app) =
            (((accumulate [⟨0, "A", none, none⟩, ⟨600000, "B", none, none⟩]).filter
                (fun e => decide (e.1 ≠ lockedScreen) && decide (e.2 = q)))).map Prod.fst) ∧
        (accumulate [⟨0, "A", none, none⟩, ⟨600000, "B", none, none⟩]).map Prod.fst =
          firstOccur
            ([(⟨0, "A", none, none⟩ : WindowEvent), ⟨600000, "B", none, none⟩].map
              (fun e => e.app_name))) := by
  have hidx : ∀ e ∈ [(⟨0, "A", none, none⟩ : WindowEvent), ⟨600000, "B", none, none⟩],
      isArrayIndex e.app_name = false := by decide
  exact ⟨hidx, c9_sorted_desc_stable_ties _ hidx⟩

/-- C9 as stated is false: with apps named "5" and "3" (canonical array
indices), JavaScript object key ordering enumerates "3" before "5", so two
apps with equal durations appear in numeric order, not in the order of
first occurrence ("5" occurred first in the input). -/
theorem c9_counterexample :
    ((calculateAppDurations
          [⟨0, "5", none, none⟩, ⟨10000, "3", none, none⟩, ⟨20000, "X", none, none⟩]).filter
        (fun d => decide (d.duration = 10))).map (fun d => d.app) = ["3", "5"] ∧
      (firstOccur
          ([(⟨0, "5", none, none⟩ : WindowEvent), ⟨10000, "3", none, none⟩,
              ⟨20000, "X", none, none⟩].map (fun e => e.app_name))).filter
        (fun a => decide (a = "3") || decide (a = "5")) = ["5", "3"] := by
  have h5 : isArrayIndex "5" = true := by decide
  have h3 : isArrayIndex "3" = true := by decide
  have hX : isArrayIndex "X" = false := by decide
  have h53 : ¬ decimalValue "5".data ≤ decimalValue "3".data := by decide
  constructor
  · norm_num [calculateAppDurations, accumulate, contribs, entriesOf, upsert, gapSeconds,
      gapCap, lockedScreen, List.insertionSort, List.orderedInsert, byDurationDesc,
      List.filter_cons, h5, h3, hX, h53]
  · decide

/-! ## Claim C3 : SQL aggregator vs in-memory aggregator -/

/-- Per-row durations of `getAppUsageForDate` (tracker-db.ts lines 290-306):
`LEAD(timestamp) OVER (ORDER BY timestamp)` is the next row's timestamp in
chronological order, and each row contributes
`EXTRACT(EPOCH FROM (next_timestamp - timestamp))` seconds, or 0 when
`next_timestamp IS NULL` (the last row).  The rows of the requested logical
date are taken as the given list, already ordered by timestamp.  No cap and
no sentinel filter appear in the query. -/
def sqlDurations : List WindowEvent → List (String × ℚ)
  | [] => []
  | [e] => [(e.app_name, 0)]
  | e :: e' :: rest => (e.app_name, gapSeconds e e') :: sqlDurations (e' :: rest)

/-- The `GROUP BY app_name / SUM(...)` step of `getAppUsageForDate`:
per-app sums of the row durations, with groups created in first-appearance
order. -/
def sqlAccumulate (events : List WindowEvent) : List (String × ℚ) :=
  (sqlDurations events).foldl (fun m c => upsert m c.1 c.2) []

/-- `getAppUsageForDate` (tracker-db.ts lines 283-323) on the rows of one
logical date, ordered by timestamp: grouped per-app duration sums, ordered
by descending duration (`ORDER BY duration_seconds DESC`).  The
`event_count` column, used by no claim, is omitted. -/
def getAppUsageForDate (events : List WindowEvent) : List (String × ℚ) :=
  List.insertionSort byDurationDesc (sqlAccumulate events)

/-- Per-app total duration in an output list of `AppDuration`s. -/
def sumForApp (l : List AppDuration) (a : String) : ℚ :=
  ((l.filter (fun d => decide (d.app = a))).map (fun d => d.duration)).sum

theorem sumFor_perm (l1 l2 : List (String × ℚ)) (a : String) (h : List.Perm l1 l2) :
    sumFor l1 a = sumFor l2 a :=
  ((h.filter _).map Prod.snd).sum_eq

theorem sumForApp_calculate (events : List WindowEvent) (a : String) :
    sumForApp (calculateAppDurations events) a =
      sumFor ((entriesOf (accumulate events)).filter
        (fun e => decide (e.1 ≠ lockedScreen))) a := by
  rw [calculateAppDurations, sumForApp, List.filter_map, List.map_map]
  have h1 : ((fun d : AppDuration => d.duration) ∘ fun e : String × ℚ =>
      (⟨e.1, e.2⟩ : AppDuration)) = Prod.snd := rfl
  have h2 : ((fun d : AppDuration => decide (d.app = a)) ∘ fun e : String × ℚ =>
      (⟨e.1, e.2⟩ : AppDuration)) = fun e : String × ℚ => decide (e.1 = a) := rfl
  rw [h1, h2]
  exact sumFor_perm _ _ a (List.perm_insertionSort byDurationDesc _)

theorem contribs_eq_sqlDurations :
    ∀ events : List WindowEvent,
      List.Chain' (fun e e' => e'.timestamp - e.timestamp ≤ 1800 * 1000) events →
        contribs events = sqlDurations events
  | [], _ => rfl
  | [e], _ => by
    rw [contribs, sqlDurations, gapSeconds_self]
    norm_num [gapCap]
  | e :: e' :: rest, h => by
    rw [List.chain'_cons] at h
    have hg : gapSeconds e e' ≤ gapCap := by
      rw [gapSeconds, gapCap, div_le_iff₀ (by norm_num : (0 : ℚ) < 1000)]
      have hle : ((e'.timestamp - e.timestamp : ℤ) : ℚ) ≤ ((1800 * 1000 : ℤ) : ℚ) :=
        Int.cast_le.mpr h.1
      calc ((e'.timestamp - e.timestamp : ℤ) : ℚ) ≤ ((1800 * 1000 : ℤ) : ℚ) := hle
        _ = 30 * 60 * 1000 := by norm_num
    rw [contribs, sqlDurations, min_eq_left hg, contribs_eq_sqlDurations (e' :: rest) h.2]

/-- C3 amended: the two aggregators agree per app on chronologically sorted
single-date inputs in which every consecutive gap is at most 1800 seconds
(1 800 000 ms) and no event carries the locked-screen sentinel; without
those restrictions they differ, since the SQL query neither caps gaps nor
filters the sentinel. -/
theorem c3_aggregators_agree_when_capped (events : List WindowEvent)
    (_hsorted : List.Chain' (fun e e' => e.timestamp ≤ e'.timestamp) events)
    (hcap : List.Chain' (fun e e' => e'.timestamp - e.timestamp ≤ 1800 * 1000) events)
    (hns : ∀ e ∈ events, ¬ e.app_name = lockedScreen) (a : String) :
    sumFor (getAppUsageForDate events) a = sumForApp (calculateAppDurations events) a := by
  have hacc : sqlAccumulate events = accumulate events := by
    rw [sqlAccumulate, accumulate, contribs_eq_sqlDurations events hcap]
  rw [sumForApp_calculate, List.filter_eq_self.mpr (no_sentinel_keys events hns),
    getAppUsageForDate, hacc]
  exact sumFor_perm _ _ a
    ((List.perm_insertionSort byDurationDesc _).trans (perm_entriesOf _).symm)

/-- Witness for the amended C3 at a concrete capped, sentinel-free input. -/
theorem c3_aggregators_agree_when_capped_witness :
    List.Chain' (fun e e' : WindowEvent => e.timestamp ≤ e'.timestamp)
        [⟨0, "A", none, none⟩, ⟨600000, "B", none, none⟩] ∧
      List.Chain' (fun e e' : WindowEvent => e'.timestamp - e.timestamp ≤ 1800 * 1000)
        [⟨0, "A", none, none⟩, ⟨600000, "B", none, none⟩] ∧
      (∀ e ∈ [(⟨0, "A", none, none⟩ : WindowEvent), ⟨600000, "B", none, none⟩],
        ¬ e.app_name = lockedScreen) ∧
      sumFor (getAppUsageForDate [⟨0, "A", none, none⟩, ⟨600000, "B", none, none⟩]) "A" =
        sumForApp (calculateAppDurations [⟨0, "A", none, none⟩, ⟨600000, "B", none, none⟩])
          "A" := by
  have h1 : List.Chain' (fun e e' : WindowEvent => e.timestamp ≤ e'.timestamp)
      [⟨0, "A", none, none⟩, ⟨600000, "B", none, none⟩] := List.chain'_pair.mpr (by decide)
  have h2 : List.Chain' (fun e e' : WindowEvent => e'.timestamp - e.timestamp ≤ 1800 * 1000)
      [⟨0, "A", none, none⟩, ⟨600000, "B", none, none⟩] := List.chain'_pair.mpr (by decide)
  have h3 : ∀ e ∈ [(⟨0, "A", none, none⟩ : WindowEvent), ⟨600000, "B", none, none⟩],
      ¬ e.app_name = lockedScreen := by decide
  exact ⟨h1, h2, h3, c3_aggregators_agree_when_capped _ h1 h2 h3 "A"⟩

/-- C3 as stated is false: on a sorted single-date input with a 5000-second
gap, the SQL aggregator reports 5000 seconds for the first app while the
in-memory aggregator caps it at 1800. -/
theorem c3_counterexample :
    ¬ (sumFor (getAppUsageForDate [⟨0, "A", none, none⟩, ⟨5000000, "B", none, none⟩]) "A" =
        sumForApp (calculateAppDurations [⟨0, "A", none, none⟩, ⟨5000000, "B", none, none⟩])
          "A") := by
  have hA : isArrayIndex "A" = false := by decide
  have hB : isArrayIndex "B" = false := by decide
  have hBA : ¬ ("B" : String) = "A" := by decide
  norm_num [hBA, getAppUsageForDate, sqlAccumulate, sqlDurations, calculateAppDurations,
    accumulate, contribs, entriesOf, upsert, gapSeconds, gapCap, lockedScreen,
    List.insertionSort, List.orderedInsert, byDurationDesc, sumFor, sumForApp,
    List.filter_cons, hA, hB]

/-! ## Database model : range summarizer and available dates -/

/-- A `window_events` table row, with the columns the modelled queries read
(`window_title` and `browser_url` are never read by them). -/
structure WindowRow where
  logical_date : String
  timestamp : ℤ
  app_name : String
  deriving DecidableEq

/-- A `key_events` table row. -/
structure KeyRow where
  logical_date : String
  timestamp : ℤ
  key_count : ℤ
  deriving DecidableEq

/-- The tracker database state read by the summarizer queries. -/
structure TrackerDB where
  window_events : List WindowRow
  key_events : List KeyRow

/-- The `WHERE` clause of `getOverview` (tracker-db.ts lines 249-260):
`w.logical_date >= from` and `w.logical_date <= to`, each only when the
bound is supplied.  YYYY-MM-DD dates compare correctly as strings. -/
def inRange (fromDate toDate : Option String) (d : String) : Bool :=
  (match fromDate with
    | some f => decide (f ≤ d)
    | none => true) &&
    (match toDate with
      | some t => decide (d ≤ t)
      | none => true)

/-- `ORDER BY logical_date DESC`: `a` precedes `b` when `b ≤ a`. -/
def dateDesc (a b : String) : Prop := b ≤ a

instance : DecidableRel dateDesc :=
  fun a b => inferInstanceAs (Decidable (b ≤ a))

instance : IsTotal String dateDesc :=
  ⟨fun a b => le_total b a⟩

instance : IsTrans String dateDesc :=
  ⟨fun _ _ _ h1 h2 => le_trans h2 h1⟩

/-- The `FROM window_events w [WHERE ...] GROUP BY w.logical_date ORDER BY
w.logical_date DESC` skeleton of `getOverview`: the distinct in-range
window-event dates, newest first. -/
def overviewDates (db : TrackerDB) (fromDate toDate : Option String) : List String :=
  List.insertionSort dateDesc
    (((db.window_events.map (fun w => w.logical_date)).filter (inRange fromDate toDate)).dedup)

/-- `COALESCE((SELECT SUM(key_count) FROM key_events k WHERE k.logical_date
= w.logical_date), 0)` (tracker-db.ts lines 239-242). -/
def totalKeys (db : TrackerDB) (d : String) : ℤ :=
  ((db.key_events.filter (fun k => decide (k.logical_date = d))).map
      (fun k => k.key_count)).sum

/-- `COUNT(DISTINCT w.app_name)` over the date's window events
(tracker-db.ts line 243). -/
def uniqueApps (db : TrackerDB) (d : String) : ℕ :=
  ((db.window_events.filter (fun w => decide (w.logical_date = d))).map
      (fun w => w.app_name)).dedup.length

/-- One row of `getOverview`'s output (tracker-db.ts lines 70-75). -/
structure DailySummary where
  logical_date : String
  total_keys : ℤ
  unique_apps : ℕ
  deriving DecidableEq

/-- `getOverview` (tracker-db.ts lines 230-278): one summary per distinct
in-range window-event date, newest first, truncated by `LIMIT`. -/
def getOverview (db : TrackerDB) (fromDate toDate : Option String) (limit : ℕ) :
    List DailySummary :=
  ((overviewDates db fromDate toDate).take limit).map
    (fun d => ⟨d, totalKeys db d, uniqueApps db d⟩)

/-- The overview route's limit handling (server.ts line 138):
`Math.min(Math.max(parseInt(limit) || 30, 1), 365)`; a missing or
unparseable query value falls back to 30. -/
def routeLimit (q : Option ℤ) : ℤ := min (max (q.getD 30) 1) 365

/-- `getAvailableDates` (tracker-db.ts lines 94-115): distinct dates of the
union of `window_events` and `key_events`, in descending order.  The label
attached to each date is locale formatting outside the modelled core. -/
def getAvailableDates (db : TrackerDB) : List String :=
  List.insertionSort dateDesc
    ((db.window_events.map (fun w => w.logical_date) ++
        db.key_events.map (fun k => k.logical_date)).dedup)

/-! ## Claim C4 : out-of-range limit is clamped, not rejected -/

/-- C4 as stated is false: invoked through the route with `limit=500`, the
value is silently clamped to 365 and `getOverview` returns results — no
`InvalidArgument` rejection exists anywhere in the pipeline. -/
theorem c4_counterexample :
    routeLimit (some 500) = 365 ∧
      getOverview
          ⟨[⟨"2024-01-01", 0, "A"⟩], [⟨"2024-01-01", 0, 5⟩]⟩ none none
          (routeLimit (some 500)).toNat =
        [⟨"2024-01-01", 5, 1⟩] := by
  constructor
  · decide
  · decide

/-- C4 amended: the server route clamps every supplied limit into `[1, 365]`
(500 becomes 365) before calling `getOverview`, which itself performs no
validation and simply truncates its output to the clamped limit. -/
theorem c4_route_clamps_limit :
    (∀ q : Option ℤ, 1 ≤ routeLimit q ∧ routeLimit q ≤ 365) ∧
      (∀ (db : TrackerDB) (fromDate toDate : Option String) (q : Option ℤ),
        (getOverview db fromDate toDate (routeLimit q).toNat).length ≤
          (routeLimit q).toNat) ∧
      routeLimit (some 500) = 365 := by
  refine ⟨fun q => ⟨le_min (le_max_right _ _) (by norm_num), min_le_right _ _⟩, ?_, by decide⟩
  intro db fromDate toDate q
  rw [getOverview, List.length_map]
  exact List.length_take_le _ _

/-! ## Claim C8 : window-only dates appear with zero keys -/

/-- C8: a logical date having a window event, lying in the requested range,
and fitting within the limit, appears in `getOverview`'s output with
`total_keys = 0` when it has no key events — it is not dropped for lacking
keystroke data. -/
theorem c8_window_date_without_keys_kept (db : TrackerDB)
    (fromDate toDate : Option String) (limit : ℕ) (d : String)
    (hwin : ∃ w ∈ db.window_events, w.logical_date = d)
    (hrange : inRange fromDate toDate d = true)
    (hfits : (overviewDates db fromDate toDate).length ≤ limit)
    (hnokeys : ∀ k ∈ db.key_events, ¬ k.logical_date = d) :
    ∃ s ∈ getOverview db fromDate toDate limit,
      s.logical_date = d ∧ s.total_keys = 0 := by
  have hd : d ∈ overviewDates db fromDate toDate := by
    rw [overviewDates, List.mem_insertionSort, List.mem_dedup, List.mem_filter]
    rcases hwin with ⟨w, hw, hwd⟩
    exact ⟨List.mem_map.mpr ⟨w, hw, hwd⟩, hrange⟩
  have hzero : totalKeys db d = 0 := by
    rw [totalKeys, List.filter_eq_nil_iff.mpr (fun k hk => by simp [hnokeys k hk])]
    rfl
  rw [getOverview, List.take_of_length_le hfits]
  exact ⟨⟨d, totalKeys db d, uniqueApps db d⟩,
    List.mem_map.mpr ⟨d, hd, rfl⟩, rfl, hzero⟩

/-- Witness for C8 at a concrete database whose only key event belongs to a
different date. -/
theorem c8_window_date_without_keys_kept_witness :
    (∃ w ∈ (⟨[⟨"2024-01-01", 0, "A"⟩], [⟨"2023-12-31", 0, 7⟩]⟩ : TrackerDB).window_events,
        w.logical_date = "2024-01-01") ∧
      inRange none none "2024-01-01" = true ∧
      (overviewDates ⟨[⟨"2024-01-01", 0, "A"⟩], [⟨"2023-12-31", 0, 7⟩]⟩ none none).length ≤
        30 ∧
      (∀ k ∈ (⟨[⟨"2024-01-01", 0, "A"⟩], [⟨"2023-12-31", 0, 7⟩]⟩ : TrackerDB).key_events,
        ¬ k.logical_date = "2024-01-01") ∧
      ∃ s ∈ getOverview ⟨[⟨"2024-01-01", 0, "A"⟩], [⟨"2023-12-31", 0, 7⟩]⟩ none none 30,
        s.logical_date = "2024-01-01" ∧ s.total_keys = 0 := by
  have h1 : ∃ w ∈ (⟨[⟨"2024-01-01", 0, "A"⟩], [⟨"2023-12-31", 0, 7⟩]⟩ :
      TrackerDB).window_events, w.logical_date = "2024-01-01" := by decide
  have h2 : inRange none none "2024-01-01" = true := by decide
  have h3 : (overviewDates ⟨[⟨"2024-01-01", 0, "A"⟩], [⟨"2023-12-31", 0, 7⟩]⟩
      none none).length ≤ 30 := by decide
  have h4 : ∀ k ∈ (⟨[⟨"2024-01-01", 0, "A"⟩], [⟨"2023-12-31", 0, 7⟩]⟩ :
      TrackerDB).key_events, ¬ k.logical_date = "2024-01-01" := by decide
  exact ⟨h1, h2, h3, h4, c8_window_date_without_keys_kept _ none none 30 _ h1 h2 h3 h4⟩

/-! ## Claim C10 : key-only dates are listed but never summarized -/

/-- C10: a logical date having key events but no window events is listed by
`getAvailableDates`, yet appears in no `getOverview` output for any range
and limit, because the overview is driven solely by `window_events`. -/
theorem c10_key_only_date_listed_not_summarized (db : TrackerDB) (d : String)
    (hkey : ∃ k ∈ db.key_events, k.logical_date = d)
    (hnowin : ∀ w ∈ db.window_events, ¬ w.logical_date = d) :
    d ∈ getAvailableDates db ∧
      ∀ (fromDate toDate : Option String) (limit : ℕ),
        ¬ d ∈ (getOverview db fromDate toDate limit).map (fun s => s.logical_date) := by
  constructor
  · rw [getAvailableDates, List.mem_insertionSort, List.mem_dedup, List.mem_append]
    rcases hkey with ⟨k, hk, hkd⟩
    exact Or.inr (List.mem_map.mpr ⟨k, hk, hkd⟩)
  · intro fromDate toDate limit hmem
    rw [getOverview, List.map_map] at hmem
    have hmem2 : d ∈ (overviewDates db fromDate toDate).take limit := by
      rcases List.mem_map.mp hmem with ⟨d', hd', hdd⟩
      exact hdd ▸ hd'
    have hmem3 : d ∈ overviewDates db fromDate toDate :=
      List.mem_of_mem_take hmem2
    rw [overviewDates, List.mem_insertionSort, List.mem_dedup, List.mem_filter] at hmem3
    rcases List.mem_map.mp hmem3.1 with ⟨w, hw, hwd⟩
    exact hnowin w hw hwd

/-- Witness for C10 at a concrete database holding only a key event. -/
theorem c10_key_only_date_listed_not_summarized_witness :
    (∃ k ∈ (⟨[], [⟨"2024-01-01", 0, 5⟩]⟩ : TrackerDB).key_events,
        k.logical_date = "2024-01-01") ∧
      (∀ w ∈ (⟨[], [⟨"2024-01-01", 0, 5⟩]⟩ : TrackerDB).window_events,
        ¬ w.logical_date = "2024-01-01") ∧
      "2024-01-01" ∈ getAvailableDates ⟨[], [⟨"2024-01-01", 0, 5⟩]⟩ ∧
      ¬ "2024-01-01" ∈ (getOverview ⟨[], [⟨"2024-01-01", 0, 5⟩]⟩ none none 30).map
        (fun s => s.logical_date) := by
  have h1 : ∃ k ∈ (⟨[], [⟨"2024-01-01", 0, 5⟩]⟩ : TrackerDB).key_events,
      k.logical_date = "2024-01-01" := by decide
  have h2 : ∀ w ∈ (⟨[], [⟨"2024-01-01", 0, 5⟩]⟩ : TrackerDB).window_events,
      ¬ w.logical_date = "2024-01-01" := by decide
  have h := c10_key_only_date_listed_not_summarized _ _ h1 h2
  exact ⟨h1, h2, h.1, h.2 none none 30⟩

/-! ## Claim C7 : first-match-wins categorization -/

/-- A categorization rule (Settings.tsx lines 16-19): a regex pattern and a
category, in a user-ordered list. -/
structure CategoryRule where
  pattern : String
  category : String
  deriving DecidableEq

/-- Modelled from the spec: the Categorizer of spec section 4.2 has no
implementation in the repository sources — only the Settings page stores the
ordered rule list (`title_mappings`) — so the operation is modelled from the
spec's words: iterate the rules in configured order, return the category of
the first rule whose pattern mtch the subject, or the sentinel
`"uncategorized"` when none mtch.  Regex evaluation is abstracted as a
Boolean predicate `mtch pattern subject`. -/
def categorize (mtch : String → String → Bool) (subject : String) :
    List CategoryRule → String
  | [] => "uncategorized"
  | r :: rest =>
    if mtch r.pattern subject then r.category else categorize mtch subject rest

/-- Whether the first character list is a prefix of the second. -/
def prefixChars : List Char → List Char → Bool
  | [], _ => true
  | _ :: _, [] => false
  | c :: cs, d :: ds => c == d && prefixChars cs ds

/-- Whether the first character list occurs contiguously in the second. -/
def subChars : List Char → List Char → Bool
  | n, [] => n.isEmpty
  | n, d :: ds => prefixChars n (d :: ds) || subChars n ds

/-- Split a character list at every bar, yielding the alternation's
alternatives. -/
def splitAlt : List Char → List (List Char)
  | [] => [[]]
  | c :: rest =>
    if c = '|' then [] :: splitAlt rest
    else
      match splitAlt rest with
      | [] => [[c]]
      | g :: gs => (c :: g) :: gs

/-- Modelled from the spec: a small concrete pattern evaluator sufficient
for the spec's examples — a pattern is an alternation of literal fragments,
and mtch when some fragment occurs as a substring of the subject (the
behavior of `new RegExp(pattern).test(subject)` on alternation-of-literal
patterns). -/
def litMatch (pattern subject : String) : Bool :=
  (splitAlt pattern.data).any (fun alt => subChars alt subject.data)

/-- C7: for every subject, rule list and match predicate, `categorize`
returns the category of the first rule in configured order whose pattern
mtch, and `"uncategorized"` when no rule mtch — in particular on the
empty rule list; and on the spec's example the earlier browser rule wins
although the later mail rule also mtch. -/
theorem c7_first_match_wins :
    (∀ (mtch : String → String → Bool) (subject : String) (rules : List CategoryRule),
        categorize mtch subject rules =
          match rules.find? (fun r => mtch r.pattern subject) with
          | some r => r.category
          | none => "uncategorized") ∧
      categorize litMatch "Google Chrome — Gmail"
          [⟨"Chrome|Safari", "Browser"⟩, ⟨"Gmail", "Email"⟩] = "Browser" ∧
      litMatch "Gmail" "Google Chrome — Gmail" = true ∧
      (∀ (mtch : String → String → Bool) (subject : String),
        categorize mtch subject [] = "uncategorized") := by
  refine ⟨?_, by decide, by decide, fun _ _ => rfl⟩
  intro mtch subject rules
  induction rules with
  | nil => rfl
  | cons r rest ih =>
    by_cases h : mtch r.pattern subject
    · simp [categorize, List.find?_cons, h]
    · simp [categorize, List.find?_cons, h, ih]
